import Mathlib

/-!
# Verification of the FlexCodeBot extraction core

A shallow embedding of `src/services/nlp_processor.py` (class `NLPProcessor`),
the one piece of real logic in the repository: text normalisation
(`_preprocess_text`), betting-code extraction (`_extract_codes`), platform
extraction (`_extract_platforms` / `_nlp_extract_entities`) and the tiered
instruction resolver (`_parse_conversion_instructions`).

Modelling conventions:
* Python strings are `List Char`; `chars s` injects Lean string literals.
* Python's `re` character classes `\w` and `\s` and the `str` methods
  `.upper()/.lower()/.title()/.strip()` are modelled at ASCII level
  (the repository's vocabulary, patterns and tests are all ASCII).
* The regexes of `_extract_codes` are of the shape `\b...\b` over classes
  contained in `\w`, so each `re.findall` match is exactly a maximal run of
  word characters that satisfies the pattern's class/length constraints;
  the embedding computes the maximal word runs and filters them.
* The four `re.finditer` patterns of `_parse_conversion_instructions` are
  alternations of literals, `\s+` and captured `(\w+)`.  Because `\w` and
  `\s` are disjoint and every literal starts with a word character, greedy
  matching never needs to backtrack: each `\w+`/`\s+` consumes exactly the
  maximal run at its position.  The embedding implements this deterministic
  matcher together with `finditer`'s leftmost, non-overlapping scan.
* The external Hugging Face call is modelled by an explicit `NERWorld`
  describing the observable outcome of `requests.post` (exception,
  status/body); `try/except` blocks are modelled in the `Except` monad.
-/

set_option maxRecDepth 10000

namespace FlexCodeBot

/-- Inject a Lean string literal into the `List Char` representation. -/
def chars (s : String) : List Char := s.data

/-! ## ASCII character classes (models of `\w`, `\s`, `[A-Z]`, `[0-9]`, `[A-Z0-9]`) -/

/-- Model of Python's regex class `\w` (ASCII): `[A-Za-z0-9_]`. -/
def isWordChar (c : Char) : Bool :=
  decide ((48 ≤ c.toNat ∧ c.toNat ≤ 57) ∨ (65 ≤ c.toNat ∧ c.toNat ≤ 90) ∨
          (97 ≤ c.toNat ∧ c.toNat ≤ 122) ∨ c.toNat = 95)

/-- Model of Python's regex class `\s` / `str.strip` whitespace (ASCII):
space, tab, newline, carriage return, vertical tab, form feed. -/
def isSpaceChar (c : Char) : Bool :=
  decide (c.toNat = 32 ∨ c.toNat = 9 ∨ c.toNat = 10 ∨ c.toNat = 13 ∨
          c.toNat = 11 ∨ c.toNat = 12)

/-- Class `[A-Z]`. -/
def isUpperLetter (c : Char) : Bool := decide (65 ≤ c.toNat ∧ c.toNat ≤ 90)

/-- Class `[a-z]`. -/
def isLowerLetter (c : Char) : Bool := decide (97 ≤ c.toNat ∧ c.toNat ≤ 122)

/-- Class `[A-Za-z]` — model of Python `str.isalpha` (ASCII), used by `str.title`. -/
def isAsciiLetter (c : Char) : Bool := isUpperLetter c || isLowerLetter c

/-- Class `[0-9]`. -/
def isDigitChar (c : Char) : Bool := decide (48 ≤ c.toNat ∧ c.toNat ≤ 57)

/-- Class `[A-Z0-9]`. -/
def isUpperAlnum (c : Char) : Bool := isUpperLetter c || isDigitChar c

/-! ## Case mapping (models of `str.upper`, `str.lower`, `str.title`) -/

/-- Model of `str.upper` character-wise (ASCII agrees with `Char.toUpper`). -/
def upperStr (l : List Char) : List Char := l.map Char.toUpper

/-- Model of `str.lower` character-wise (ASCII agrees with `Char.toLower`). -/
def lowerStr (l : List Char) : List Char := l.map Char.toLower

/-- Helper for `titleStr`: the flag records whether the previous character
was a letter (Python `str.title` uppercases the first letter of each
letter-run and lowercases the rest). -/
def titleAux : Bool → List Char → List Char
  | _, [] => []
  | prevAlpha, c :: cs =>
    if isAsciiLetter c then
      (if prevAlpha then c.toLower else c.toUpper) :: titleAux true cs
    else
      c :: titleAux false cs

/-- Model of Python `str.title` (ASCII). -/
def titleStr (l : List Char) : List Char := titleAux false l

/-! ## `_preprocess_text` (nlp_processor.py lines 72–89)

```python
text = re.sub(r'@\w+', '', text)
text = re.sub(r'#\w+', '', text)
text = re.sub(r'\s+', ' ', text).strip()
```

`re.sub(r'@\w+', '')` deletes every occurrence of the marker followed by a
nonempty maximal word-character run, scanning left to right; the state
machine below sets `skip := true` when it deletes a marker and keeps
dropping the following word characters. -/

/-- Is the head of the list a word character? -/
def headIsWord : List Char → Bool
  | [] => false
  | d :: _ => isWordChar d

/-- One pass of `re.sub(r'<m>\w+', '', text)` as a state machine
(`skip` = currently deleting the word run that followed a deleted marker). -/
def subMarkAux (m : Char) : Bool → List Char → List Char
  | _, [] => []
  | skip, c :: cs =>
    if skip && isWordChar c then subMarkAux m true cs
    else if c == m && headIsWord cs then subMarkAux m true cs
    else c :: subMarkAux m false cs

/-- Model of `re.sub(r'<m>\w+', '', text)` for a marker character `m`. -/
def subMark (m : Char) (l : List Char) : List Char := subMarkAux m false l

/-- Model of `re.sub(r'\s+', ' ', text)`: every maximal whitespace run becomes one
space (`inSp` = inside a whitespace run whose single space was emitted). -/
def collapseWsAux : Bool → List Char → List Char
  | _, [] => []
  | inSp, c :: cs =>
    if isSpaceChar c then
      (if inSp then collapseWsAux true cs else ' ' :: collapseWsAux true cs)
    else c :: collapseWsAux false cs

/-- Model of `re.sub(r'\s+', ' ', text)`. -/
def collapseWs (l : List Char) : List Char := collapseWsAux false l

/-- Model of `str.lstrip()` (whitespace). -/
def lstripWs (l : List Char) : List Char := l.dropWhile isSpaceChar

/-- Model of `str.rstrip()` (whitespace). -/
def rstripWs (l : List Char) : List Char := (l.reverse.dropWhile isSpaceChar).reverse

/-- Model of `str.strip()` (whitespace). -/
def stripWs (l : List Char) : List Char := rstripWs (lstripWs l)

/-- Model of `NLPProcessor._preprocess_text`. -/
def preprocess_text (text : List Char) : List Char :=
  stripWs (collapseWs (subMark '#' (subMark '@' text)))



/-! ## `_extract_codes` (nlp_processor.py lines 91–120)

```python
patterns = [
    r'\b[A-Z0-9]{6,12}\b',     # Alphanumeric codes 6-12 chars
    r'\b\d{8,15}\b',           # Numeric codes 8-15 digits
    r'\b[A-Z]{2,4}\d{4,8}\b',  # Letter prefix + numbers
]
codes = []
for pattern in patterns:
    codes.extend(re.findall(pattern, text.upper()))
# dedup preserving order
```

All three patterns are `\b C … \b` with every allowed character in `\w`,
so a match must start and end exactly at the boundaries of one maximal
word-character run: `re.findall` returns, left to right, the maximal word
runs satisfying the pattern's class and length constraints. -/

/-- Maximal word-character runs of the text, left to right (`cur` is the
run being accumulated, in reverse). -/
def wordRunsAux : List Char → List Char → List (List Char)
  | cur, [] => if cur = [] then [] else [cur.reverse]
  | cur, c :: cs =>
    if isWordChar c then wordRunsAux (c :: cur) cs
    else if cur = [] then wordRunsAux [] cs
    else cur.reverse :: wordRunsAux [] cs

/-- Maximal word-character runs of the text, left to right. -/
def wordRuns (l : List Char) : List (List Char) := wordRunsAux [] l

/-- Does a maximal word run match `\b[A-Z0-9]{6,12}\b`? -/
def pat1Ok (r : List Char) : Bool :=
  decide (6 ≤ r.length) && decide (r.length ≤ 12) && r.all isUpperAlnum

/-- Does a maximal word run match `\b\d{8,15}\b`? -/
def pat2Ok (r : List Char) : Bool :=
  decide (8 ≤ r.length) && decide (r.length ≤ 15) && r.all isDigitChar

/-- Does a maximal word run match `\b[A-Z]{2,4}\d{4,8}\b`?  The letter part
must be the full (maximal) letter prefix of the run — if the prefix is
longer than 4 the character after any shorter letter group is a letter,
not a digit — and the digit part must reach the end of the run. -/
def pat3Ok (r : List Char) : Bool :=
  let letters := r.takeWhile isUpperLetter
  let rest := r.drop letters.length
  decide (2 ≤ letters.length) && decide (letters.length ≤ 4) &&
    decide (4 ≤ rest.length) && decide (rest.length ≤ 8) && rest.all isDigitChar

/-- The `re.findall` results of the three code patterns over the upper-cased
text, concatenated in pattern order (the `codes` list before dedup). -/
def allCodeMatches (text : List Char) : List (List Char) :=
  let runs := wordRuns (upperStr text)
  runs.filter pat1Ok ++ runs.filter pat2Ok ++ runs.filter pat3Ok

/-- Order-preserving first-occurrence deduplication
(`if code not in unique_codes: unique_codes.append(code)`). -/
def dedupFirstAux (seen : List (List Char)) : List (List Char) → List (List Char)
  | [] => []
  | x :: xs => if x ∈ seen then dedupFirstAux seen xs else x :: dedupFirstAux (x :: seen) xs

/-- Order-preserving first-occurrence deduplication. -/
def dedupFirst (l : List (List Char)) : List (List Char) := dedupFirstAux [] l

/-- Model of `NLPProcessor._extract_codes`. -/
def extract_codes (text : List Char) : List (List Char) :=
  dedupFirst (allCodeMatches text)





/-! ## `_extract_platforms` / `_nlp_extract_entities` (lines 122–194)

`self.known_platforms` is a Python `set` literal; we keep the insertion
order of the source text.  Set iteration order is unspecified in Python,
but the resolver consults the set only through membership, and the claims
about the keyword pass are order-insensitive. -/

/-- The set `self.known_platforms` (source order of the set literal). -/
def knownPlatformsList : List (List Char) :=
  [chars "stake", chars "sportybet", chars "bet9ja", chars "1xbet",
   chars "betway", chars "nairabet", chars "merrybet", chars "betking",
   chars "betnaija", chars "supabet", chars "betbonanza", chars "accessbet",
   chars "betpawa", chars "msport", chars "parimatch", chars "betfair"]

/-- Python's substring test `p in t` (contiguous occurrence). -/
def hasInfix (t p : List Char) : Bool :=
  p.isPrefixOf t ||
    (match t with
     | [] => false
     | _ :: ts => hasInfix ts p)

/-- Keyword pass of `_extract_platforms`:
`for platform in self.known_platforms: if platform in text_lower:
platforms.append(platform.title())`. -/
def keywordPass (text : List Char) : List (List Char) :=
  knownPlatformsList.filterMap fun p =>
    if hasInfix (lowerStr text) p then some (titleStr p) else none

/-- One entity dict of the Hugging Face NER response
(`entity.get(...)` is modelled by `Option`). -/
structure Entity where
  entity_group : Option (List Char)
  entity_label : Option (List Char)
  word : Option (List Char)
deriving DecidableEq

/-- Observable outcome of the `requests.post` call in
`_nlp_extract_entities`: the request raises, or returns a response whose
`.json()` raises, or returns a response with a status and parsed body. -/
inductive NERWorld where
  | raises
  | badJson (status : Nat)
  | response (status : Nat) (entities : List Entity)
deriving DecidableEq

/-- Model of `word.replace('##', '')`: delete non-overlapping `##` left to right. -/
def stripHashMarks : List Char → List Char
  | '#' :: '#' :: cs => stripHashMarks cs
  | c :: cs => c :: stripHashMarks cs
  | [] => []

/-- Processing of one entity inside `_nlp_extract_entities`:
organisation entities contribute `word.replace('##','').strip().title()`
when the cleaned word is longer than 2 characters. -/
def processEntity (e : Entity) : Option (List Char) :=
  if e.entity_group = some (chars "ORG") ∨
     e.entity_label = some (chars "B-ORG") ∨ e.entity_label = some (chars "I-ORG") then
    let w := stripWs (stripHashMarks (e.word.getD []))
    if 2 < w.length then some (titleStr w) else none
  else none

/-- The `try`-block body of `_nlp_extract_entities` in the `Except` monad:
`.error` marks the points where the Python code would raise. -/
def nlpTryBody : NERWorld → Except Unit (List (List Char))
  | .raises => .error ()
  | .badJson status =>
    if status ≠ 200 then .ok [] else .error ()
  | .response status entities =>
    if status ≠ 200 then .ok [] else .ok (entities.filterMap processEntity)

/-- Model of `NLPProcessor._nlp_extract_entities`: its own `except` returns `[]`,
so the function never propagates an error. -/
def nlp_extract_entitiesE (w : NERWorld) : Except Unit (List (List Char)) :=
  match nlpTryBody w with
  | .ok r => .ok r
  | .error _ => .ok []

/-- Model of `NLPProcessor._extract_platforms`: keyword pass, then the NER pass
guarded by its own `try/except` (on failure the keyword candidates alone
are kept), then order-preserving dedup. -/
def extract_platformsE (w : NERWorld) (text : List Char) :
    Except Unit (List (List Char)) :=
  let platforms := keywordPass text
  match nlp_extract_entitiesE w with
  | .ok nlp => .ok (dedupFirst (platforms ++ nlp))
  | .error _ => .ok (dedupFirst platforms)

/-- The function `_extract_platforms` as a plain function (it never fails). -/
def extract_platforms (w : NERWorld) (text : List Char) : List (List Char) :=
  match extract_platformsE w text with
  | .ok r => r
  | .error _ => []



/-! ## `_parse_conversion_instructions` (lines 196–271)

```python
conversion_patterns = [
    r'convert\s+(\w+)\s+code\s+(\w+)\s+to\s+(\w+)',
    r'(\w+)\s+code\s+(\w+)\s+to\s+(\w+)',
    r'from\s+(\w+)\s+(\w+)\s+to\s+(\w+)',
    r'(\w+)\s+(\w+)\s+to\s+(\w+)'
]
```

Each pattern is a sequence of literals, `\s+` and captured `(\w+)`.
`\w` and `\s` are disjoint and every literal starts with a word character,
so greedy matching is deterministic: each `\w+` (resp. `\s+`) must consume
exactly the maximal word (resp. whitespace) run at its position, since
consuming less leaves a character of the same class in front of a token
that cannot accept it. -/

/-- A token of a conversion pattern. -/
inductive Tok where
  | lit (s : List Char)
  | sp
  | grp
deriving DecidableEq

/-- Deterministic match of a token sequence at the head of `cs`:
returns the captured groups in order and the rest of the input. -/
def matchToks : List Tok → List Char → Option (List (List Char) × List Char)
  | [], cs => some ([], cs)
  | .lit s :: ts, cs =>
    if s.isPrefixOf cs then matchToks ts (cs.drop s.length) else none
  | .sp :: ts, cs =>
    let run := cs.takeWhile isSpaceChar
    if run = [] then none else matchToks ts (cs.drop run.length)
  | .grp :: ts, cs =>
    let run := cs.takeWhile isWordChar
    if run = [] then none
    else (matchToks ts (cs.drop run.length)).map fun gr => (run :: gr.1, gr.2)

/-- Model of `re.finditer`: scan start positions left to right, emit each match's
groups, and continue after the end of a match (non-overlapping).  The
fuel argument makes the recursion structural; it is called with
`fuel = cs.length + 1`, which is always sufficient since a successful
match either consumes at least one character or the scan advances by one. -/
def finditerAux (p : List Tok) : Nat → List Char → List (List (List Char))
  | 0, _ => []
  | fuel + 1, cs =>
    match matchToks p cs with
    | some (gs, rest) =>
      if rest.length < cs.length then gs :: finditerAux p fuel rest
      else
        gs :: (match cs with
               | [] => []
               | _ :: cs' => finditerAux p fuel cs')
    | none =>
      match cs with
      | [] => []
      | _ :: cs' => finditerAux p fuel cs'

/-- All matches of a pattern over the text, leftmost first. -/
def finditer (p : List Tok) (cs : List Char) : List (List (List Char)) :=
  finditerAux p (cs.length + 1) cs

/-- The four `conversion_patterns`, in source order. -/
def conversionPatterns : List (List Tok) :=
  [[.lit (chars "convert"), .sp, .grp, .sp, .lit (chars "code"), .sp, .grp, .sp,
    .lit (chars "to"), .sp, .grp],
   [.grp, .sp, .lit (chars "code"), .sp, .grp, .sp, .lit (chars "to"), .sp, .grp],
   [.lit (chars "from"), .sp, .grp, .sp, .grp, .sp, .lit (chars "to"), .sp, .grp],
   [.grp, .sp, .grp, .sp, .lit (chars "to"), .sp, .grp]]

/-- A resolved conversion triple
(`{'code': …, 'original_platform': …, 'target_platform': …}`). -/
structure ConversionTriple where
  code : List Char
  original_platform : Option (List Char)
  target_platform : Option (List Char)
deriving DecidableEq

/-- The group-classification loop of `_parse_conversion_instructions`:

```python
for group in groups:
    if group.upper() in [code.upper() for code in codes]:
        potential_code = group.upper()
    elif group.title() in platforms or group.lower() in self.known_platforms:
        if original_platform is None: original_platform = group.title()
        else: target_platform = group.title()
```

The state is `(potential_code, original_platform, target_platform)`;
`known` abstracts `self.known_platforms` (consulted only via membership). -/
def classifyStep (codes platforms known : List (List Char))
    (st : Option (List Char) × Option (List Char) × Option (List Char))
    (g : List Char) :
    Option (List Char) × Option (List Char) × Option (List Char) :=
  if upperStr g ∈ codes.map upperStr then
    (some (upperStr g), st.2.1, st.2.2)
  else if titleStr g ∈ platforms ∨ lowerStr g ∈ known then
    match st.2.1 with
    | none => (st.1, some (titleStr g), st.2.2)
    | some _ => (st.1, st.2.1, some (titleStr g))
  else st

/-- Classification of a match's captured groups. -/
def classifyGroups (codes platforms known : List (List Char))
    (groups : List (List Char)) :
    Option (List Char) × Option (List Char) × Option (List Char) :=
  groups.foldl (classifyStep codes platforms known) (none, none, none)

/-- Triple contributed by one match
(`if potential_code: conversion_pairs.append(...)`). -/
def processMatch (codes platforms known : List (List Char))
    (groups : List (List Char)) : Option ConversionTriple :=
  if 3 ≤ groups.length then
    match classifyGroups codes platforms known groups with
    | (some c, op, tp) => some ⟨c, op, tp⟩
    | (none, _, _) => none
  else none

/-- Tier 1: pattern loop of `_parse_conversion_instructions`, over the
already lower-cased text. -/
def tier1Pairs (known : List (List Char)) (textLower : List Char)
    (codes platforms : List (List Char)) : List ConversionTriple :=
  (conversionPatterns.map fun p =>
    (finditer p textLower).filterMap (processMatch codes platforms known)).flatten

/-- Tier 2: positional pairing
(`platforms[i*2] if i*2 < len(platforms) else None`, etc.). -/
def tier2Pairs (codes platforms : List (List Char)) : List ConversionTriple :=
  codes.enum.map fun ic => ⟨ic.2, platforms[2 * ic.1]?, platforms[2 * ic.1 + 1]?⟩

/-- Tier 3: bare codes with both platforms absent. -/
def tier3Pairs (codes : List (List Char)) : List ConversionTriple :=
  codes.map fun c => ⟨c, none, none⟩

/-- Model of `_parse_conversion_instructions` with the known-platform vocabulary
as a parameter (the code reads `self.known_platforms` only via `in`). -/
def parseInstructionsWith (known : List (List Char)) (text : List Char)
    (codes platforms : List (List Char)) : List ConversionTriple :=
  let pairs1 := tier1Pairs known (lowerStr text) codes platforms
  let pairs2 := if pairs1 = [] ∧ codes ≠ [] then pairs1 ++ tier2Pairs codes platforms
                else pairs1
  let pairs3 := if pairs2 = [] ∧ codes ≠ [] then pairs2 ++ tier3Pairs codes
                else pairs2
  pairs3

/-- Model of `NLPProcessor._parse_conversion_instructions`
(`text` is the cleaned text; the function lower-cases it itself). -/
def parse_conversion_instructions (text : List Char)
    (codes platforms : List (List Char)) : List ConversionTriple :=
  parseInstructionsWith knownPlatformsList text codes platforms

/-- Variant of `_parse_conversion_instructions` with the Tier-3 bare-code block
removed (used to show that block is unreachable). -/
def parseInstructionsNoTier3 (text : List Char)
    (codes platforms : List (List Char)) : List ConversionTriple :=
  let pairs1 := tier1Pairs knownPlatformsList (lowerStr text) codes platforms
  let pairs2 := if pairs1 = [] ∧ codes ≠ [] then pairs1 ++ tier2Pairs codes platforms
                else pairs1
  pairs2

/-- Model of `NLPProcessor.extract_betting_info`: normalize, extract codes and
platforms, resolve (nothing in the model raises, so the surrounding
`try/except` is the identity). -/
def extract_betting_info (w : NERWorld) (text : List Char) : List ConversionTriple :=
  let cleaned := preprocess_text text
  let codes := extract_codes cleaned
  let platforms := extract_platforms w cleaned
  parse_conversion_instructions cleaned codes platforms





/-! ## Auxiliary notions used only to state claims -/

/-- Index of the first occurrence of `p` as a contiguous substring of `t`. -/
def firstOcc (t p : List Char) : Option Nat :=
  if p.isPrefixOf t then some 0
  else
    match t with
    | [] => none
    | _ :: ts => (firstOcc ts p).map (· + 1)

/-- First-occurrence index, with `t.length + 1` standing for "absent". -/
def occIdx (t p : List Char) : Nat := (firstOcc t p).getD (t.length + 1)

/-- Is the list of tokens ordered by first match position in `t`? -/
def posOrdered (t : List Char) : List (List Char) → Bool
  | a :: b :: rest => decide (occIdx t a ≤ occIdx t b) && posOrdered t (b :: rest)
  | _ => true

/-! ## Invariants of normalized text (used to prove idempotence of
`_preprocess_text`) -/

/-- Is the head of the list a whitespace character? -/
def headIsSpace : List Char → Bool
  | [] => false
  | d :: _ => isSpaceChar d

/-- No occurrence of marker `c = m` immediately followed by a word
character, checked for the single position `c` against the tail `cs`. -/
def pairOkM (m c : Char) : List Char → Bool
  | [] => true
  | d :: _ => !(c == m && isWordChar d)

/-- The text contains no occurrence of the marker `m` immediately
followed by a word character (so `re.sub(r'<m>\w+', '', ·)` is the
identity on it). -/
def okMarks (m : Char) : List Char → Bool
  | [] => true
  | c :: cs => pairOkM m c cs && okMarks m cs

/-- Position-wise condition for collapsed whitespace: a whitespace
character must be a plain space not followed by whitespace. -/
def spOk (c : Char) (cs : List Char) : Bool :=
  if isSpaceChar c then (c == ' ') && !(headIsSpace cs) else true

/-- Every whitespace character in the text is a single space not followed
by whitespace (so `re.sub(r'\s+', ' ', ·)` is the identity on it). -/
def spacesOk : List Char → Bool
  | [] => true
  | c :: cs => spOk c cs && spacesOk cs

/-! ## Properties of first-occurrence deduplication -/

theorem dedupFirstAux_sublist (l : List (List Char)) :
    ∀ seen, (dedupFirstAux seen l).Sublist l := by
  induction l with
  | nil => intro seen; simp [dedupFirstAux]
  | cons x xs ih =>
    intro seen
    simp only [dedupFirstAux]
    by_cases hx : x ∈ seen
    · exact (if_pos hx) ▸ (ih seen).cons x
    · exact (if_neg hx) ▸ (ih (x :: seen)).cons₂ x

theorem not_mem_seen_of_mem_dedupFirstAux (l : List (List Char)) :
    ∀ seen y, y ∈ dedupFirstAux seen l → y ∉ seen := by
  induction l with
  | nil => intro seen y h; simp [dedupFirstAux] at h
  | cons x xs ih =>
    intro seen y h
    simp only [dedupFirstAux] at h
    by_cases hx : x ∈ seen
    · rw [if_pos hx] at h
      exact ih seen y h
    · rw [if_neg hx] at h
      rcases List.mem_cons.mp h with rfl | h
      · exact hx
      · exact fun hy => ih (x :: seen) y h (List.mem_cons_of_mem x hy)

theorem dedupFirstAux_nodup (l : List (List Char)) :
    ∀ seen, (dedupFirstAux seen l).Nodup := by
  induction l with
  | nil => intro seen; simp [dedupFirstAux]
  | cons x xs ih =>
    intro seen
    simp only [dedupFirstAux]
    by_cases hx : x ∈ seen
    · exact (if_pos hx) ▸ ih seen
    · rw [if_neg hx]
      refine List.nodup_cons.mpr ⟨fun hmem => ?_, ih (x :: seen)⟩
      exact not_mem_seen_of_mem_dedupFirstAux xs (x :: seen) x hmem (List.mem_cons_self _ _)

theorem mem_dedupFirstAux_of_mem (l : List (List Char)) :
    ∀ seen x, x ∈ l → x ∈ seen ∨ x ∈ dedupFirstAux seen l := by
  induction l with
  | nil => intro seen x h; simp at h
  | cons a xs ih =>
    intro seen x h
    simp only [dedupFirstAux]
    by_cases ha : a ∈ seen
    · rw [if_pos ha]
      rcases List.mem_cons.mp h with rfl | h
      · exact Or.inl ha
      · exact ih seen x h
    · rw [if_neg ha]
      rcases List.mem_cons.mp h with rfl | h
      · exact Or.inr (List.mem_cons_self _ _)
      · rcases ih (a :: seen) x h with hs | hd
        · rcases List.mem_cons.mp hs with rfl | hs
          · exact Or.inr (List.mem_cons_self _ _)
          · exact Or.inl hs
        · exact Or.inr (List.mem_cons_of_mem a hd)

theorem mem_dedupFirst_iff (l : List (List Char)) (x : List Char) :
    x ∈ dedupFirst l ↔ x ∈ l := by
  constructor
  · exact fun h => (dedupFirstAux_sublist l []).subset h
  · intro h
    rcases mem_dedupFirstAux_of_mem l [] x h with hs | hd
    · simp at hs
    · exact hd

theorem dedupFirstAux_eq_self (l : List (List Char)) :
    ∀ seen, l.Nodup → (∀ x ∈ l, x ∉ seen) → dedupFirstAux seen l = l := by
  induction l with
  | nil => intro seen _ _; rfl
  | cons x xs ih =>
    intro seen hnd hout
    have hx : x ∉ seen := hout x (List.mem_cons_self _ _)
    simp only [dedupFirstAux, if_neg hx]
    congr 1
    refine ih (x :: seen) (List.nodup_cons.mp hnd).2 fun y hy => ?_
    intro hmem
    rcases List.mem_cons.mp hmem with rfl | hmem
    · exact (List.nodup_cons.mp hnd).1 hy
    · exact hout y (List.mem_cons_of_mem x hy) hmem

/-! ## Claim C4 — code tokenizer ordering and dedup -/

/-- C4, counterexample: the output of `extract_codes` is NOT ordered by
first match position in the text.  On `"1234567890123 ABCDEF"` the
13-digit run is matched only by the second pattern, so it is appended
after the first pattern's match `ABCDEF` even though it occurs first
(position 0 versus position 14) in the text. -/
theorem extract_codes_not_position_ordered :
    extract_codes (chars "1234567890123 ABCDEF") =
      [chars "ABCDEF", chars "1234567890123"] ∧
    occIdx (chars "1234567890123 ABCDEF") (chars "1234567890123") = 0 ∧
    occIdx (chars "1234567890123 ABCDEF") (chars "ABCDEF") = 14 ∧
    posOrdered (chars "1234567890123 ABCDEF")
      (extract_codes (chars "1234567890123 ABCDEF")) = false := by decide

/-- C4, amended: `extract_codes` returns the pattern-major concatenation
of the three patterns' matches (pattern order first, match position within
each pattern second), deduplicated by exact token with the first
occurrence retained: the result is a duplicate-free subsequence of the
concatenated match list containing exactly its members.  (Matches are
taken from the upper-cased text, so dedup by token equals dedup by
upper-cased form.) -/
theorem extract_codes_dedup_of_matches (t : List Char) :
    (extract_codes t).Sublist (allCodeMatches t) ∧
    (extract_codes t).Nodup ∧
    ∀ c, c ∈ extract_codes t ↔ c ∈ allCodeMatches t :=
  ⟨dedupFirstAux_sublist _ [], dedupFirstAux_nodup _ [],
   fun c => mem_dedupFirst_iff _ c⟩

/-! ## Claims C2, C3, C10 — tier structure of the resolver -/

/-- C2: if Tier 1 produced at least one triple, the resolver's output is
exactly the Tier-1 triples; Tiers 2 and 3 contribute nothing. -/
theorem resolver_tier1_short_circuit (text : List Char)
    (codes platforms : List (List Char))
    (h : tier1Pairs knownPlatformsList (lowerStr text) codes platforms ≠ []) :
    parse_conversion_instructions text codes platforms =
      tier1Pairs knownPlatformsList (lowerStr text) codes platforms := by
  unfold parse_conversion_instructions parseInstructionsWith
  simp only
  have h2 : ¬(tier1Pairs knownPlatformsList (lowerStr text) codes platforms = [] ∧
      codes ≠ []) := fun hc => h hc.1
  rw [if_neg h2, if_neg h2]

/-- C2, witness: a Tier-1 phrasing with extra platforms present, where the
positional Tier-2 pairing would give a different answer. -/
theorem resolver_tier1_short_circuit_witness :
    tier1Pairs knownPlatformsList
        (lowerStr (chars "convert stake code AB123456 to sportybet"))
        [chars "AB123456"] [chars "Stake", chars "Sportybet"] ≠ [] ∧
    parse_conversion_instructions (chars "convert stake code AB123456 to sportybet")
        [chars "AB123456"] [chars "Stake", chars "Sportybet"] =
      tier1Pairs knownPlatformsList
        (lowerStr (chars "convert stake code AB123456 to sportybet"))
        [chars "AB123456"] [chars "Stake", chars "Sportybet"] :=
  ⟨by decide,
   resolver_tier1_short_circuit (chars "convert stake code AB123456 to sportybet")
     [chars "AB123456"] [chars "Stake", chars "Sportybet"] (by decide)⟩

theorem tier2Pairs_length (codes platforms : List (List Char)) :
    (tier2Pairs codes platforms).length = codes.length := by
  simp [tier2Pairs]

theorem tier2Pairs_ne_nil (codes platforms : List (List Char)) (h : codes ≠ []) :
    tier2Pairs codes platforms ≠ [] := by
  intro hnil
  exact h (List.length_eq_zero.mp (by rw [← tier2Pairs_length codes platforms, hnil]; rfl))

theorem tier2Pairs_eq_range_map (codes platforms : List (List Char)) :
    tier2Pairs codes platforms =
      (List.range codes.length).map fun i =>
        ⟨codes.getD i [], platforms[2 * i]?, platforms[2 * i + 1]?⟩ := by
  apply List.ext_getElem
  · simp [tier2Pairs]
  · intro i h1 h2
    simp only [tier2Pairs, List.getElem_map, List.getElem_enum, List.getElem_range]
    have hi : i < codes.length := by simpa [tier2Pairs] using h1
    rw [List.getD_eq_getElem codes [] hi]

/-- C3: if Tier 1 produced zero triples and at least one code was
extracted, the resolver returns exactly one triple per code, in extraction
order, with `source_platform = platforms[2i]` and
`target_platform = platforms[2i+1]` when those indices exist, absent
otherwise. -/
theorem resolver_tier2_positional (text : List Char)
    (codes platforms : List (List Char))
    (h1 : tier1Pairs knownPlatformsList (lowerStr text) codes platforms = [])
    (h2 : codes ≠ []) :
    parse_conversion_instructions text codes platforms =
      (List.range codes.length).map fun i =>
        ⟨codes.getD i [], platforms[2 * i]?, platforms[2 * i + 1]?⟩ := by
  unfold parse_conversion_instructions parseInstructionsWith
  simp only
  have hin : tier1Pairs knownPlatformsList (lowerStr text) codes platforms = [] ∧
      codes ≠ [] := ⟨h1, h2⟩
  have hout : ¬(tier2Pairs codes platforms = [] ∧ codes ≠ []) :=
    fun hc => tier2Pairs_ne_nil codes platforms h2 hc.1
  rw [if_pos hin, h1, List.nil_append, if_neg hout]
  exact tier2Pairs_eq_range_map codes platforms

/-- C3, witness: no conversion phrasing at all, one code, three platforms:
the single triple pairs `platforms[0]` and `platforms[1]`. -/
theorem resolver_tier2_positional_witness :
    tier1Pairs knownPlatformsList (lowerStr (chars "hello there"))
        [chars "AB123456"] [chars "Stake", chars "Sportybet", chars "Betway"] = [] ∧
    ([chars "AB123456"] : List (List Char)) ≠ [] ∧
    parse_conversion_instructions (chars "hello there") [chars "AB123456"]
        [chars "Stake", chars "Sportybet", chars "Betway"] =
      (List.range ([chars "AB123456"] : List (List Char)).length).map fun i =>
        ⟨[chars "AB123456"].getD i [],
         [chars "Stake", chars "Sportybet", chars "Betway"][2 * i]?,
         [chars "Stake", chars "Sportybet", chars "Betway"][2 * i + 1]?⟩ :=
  ⟨by decide, by decide,
   resolver_tier2_positional (chars "hello there") [chars "AB123456"]
     [chars "Stake", chars "Sportybet", chars "Betway"] (by decide) (by decide)⟩

/-- C10: whenever Tier 1 yields zero triples and codes is non-empty,
Tier 2 emits exactly one triple per code, so the Tier-3 bare-code branch
never executes: the resolver with that branch removed is extensionally
equal to the original. -/
theorem tier3_unreachable (text : List Char) (codes platforms : List (List Char)) :
    (tier1Pairs knownPlatformsList (lowerStr text) codes platforms = [] →
      codes ≠ [] → (tier2Pairs codes platforms).length = codes.length) ∧
    parseInstructionsNoTier3 text codes platforms =
      parse_conversion_instructions text codes platforms := by
  refine ⟨fun _ _ => tier2Pairs_length codes platforms, ?_⟩
  unfold parseInstructionsNoTier3 parse_conversion_instructions parseInstructionsWith
  simp only
  by_cases hc : tier1Pairs knownPlatformsList (lowerStr text) codes platforms = [] ∧
      codes ≠ []
  · have hout : ¬(tier2Pairs codes platforms = [] ∧ codes ≠ []) :=
      fun hc2 => tier2Pairs_ne_nil codes platforms hc.2 hc2.1
    rw [if_pos hc, hc.1, List.nil_append, if_neg hout]
  · rw [if_neg hc, if_neg hc]

/-- C10, witness: concrete instantiation of both conjuncts. -/
theorem tier3_unreachable_witness :
    (tier2Pairs [chars "AB123456"] []).length = ([chars "AB123456"] : List (List Char)).length ∧
    parseInstructionsNoTier3 (chars "hi") [chars "AB123456"] [] =
      parse_conversion_instructions (chars "hi") [chars "AB123456"] [] :=
  ⟨(tier3_unreachable (chars "hi") [chars "AB123456"] []).1 (by decide) (by decide),
   (tier3_unreachable (chars "hi") [chars "AB123456"] []).2⟩

/-! ## Character-level facts about `Char.toUpper` / `Char.toLower` -/

theorem char_eq_of_toNat_eq {a b : Char} (h : a.toNat = b.toNat) : a = b :=
  Char.ext (UInt32.ext h)

theorem toNat_ofNat_of_lt {n : Nat} (h : n < 128) : (Char.ofNat n).toNat = n := by
  rw [Char.ofNat, dif_pos (Or.inl (by omega))]
  simp [Char.ofNatAux, Char.toNat, UInt32.toNat, BitVec.toNat_ofNatLt]

theorem char_toNat_toUpper (c : Char) :
    c.toUpper.toNat = if 97 ≤ c.toNat ∧ c.toNat ≤ 122 then c.toNat - 32 else c.toNat := by
  unfold Char.toUpper
  by_cases h : c.toNat ≥ 97 ∧ c.toNat ≤ 122
  · rw [if_pos h, if_pos ⟨h.1, h.2⟩, toNat_ofNat_of_lt (by omega)]
  · rw [if_neg h, if_neg fun hc => h ⟨hc.1, hc.2⟩]

theorem char_toNat_toLower (c : Char) :
    c.toLower.toNat = if 65 ≤ c.toNat ∧ c.toNat ≤ 90 then c.toNat + 32 else c.toNat := by
  unfold Char.toLower
  by_cases h : c.toNat ≥ 65 ∧ c.toNat ≤ 90
  · rw [if_pos h, if_pos ⟨h.1, h.2⟩, toNat_ofNat_of_lt (by omega)]
  · rw [if_neg h, if_neg fun hc => h ⟨hc.1, hc.2⟩]

theorem toUpper_toUpper (c : Char) : c.toUpper.toUpper = c.toUpper := by
  apply char_eq_of_toNat_eq
  rw [char_toNat_toUpper c.toUpper, char_toNat_toUpper c]
  by_cases h : 97 ≤ c.toNat ∧ c.toNat ≤ 122
  · rw [if_pos h, if_neg (by omega)]
  · rw [if_neg h, if_neg h]

theorem upperStr_upperStr (l : List Char) : upperStr (upperStr l) = upperStr l := by
  simp only [upperStr, List.map_map]
  exact List.map_congr_left fun c _ => toUpper_toUpper c

/-! ## Claim C6 — triple invariant of the resolver -/

theorem classifyStep_inv (codes platforms known : List (List Char))
    (st : Option (List Char) × Option (List Char) × Option (List Char))
    (g : List Char)
    (h : st.1 = none ∨ ∃ cd ∈ codes, st.1 = some (upperStr cd)) :
    (classifyStep codes platforms known st g).1 = none ∨
      ∃ cd ∈ codes, (classifyStep codes platforms known st g).1 = some (upperStr cd) := by
  unfold classifyStep
  by_cases h1 : upperStr g ∈ codes.map upperStr
  · rw [if_pos h1]
    rcases List.mem_map.mp h1 with ⟨cd, hcd, hup⟩
    exact Or.inr ⟨cd, hcd, by rw [← hup]⟩
  · rw [if_neg h1]
    by_cases h2 : titleStr g ∈ platforms ∨ lowerStr g ∈ known
    · rw [if_pos h2]
      cases hst : st.2.1 with
      | none => exact h
      | some v => exact h
    · rw [if_neg h2]; exact h

theorem classifyGroups_inv (codes platforms known : List (List Char))
    (groups : List (List Char)) :
    (classifyGroups codes platforms known groups).1 = none ∨
      ∃ cd ∈ codes, (classifyGroups codes platforms known groups).1 = some (upperStr cd) := by
  unfold classifyGroups
  generalize hst : ((none, none, none) :
    Option (List Char) × Option (List Char) × Option (List Char)) = st
  have hinv : st.1 = none ∨ ∃ cd ∈ codes, st.1 = some (upperStr cd) := by
    rw [← hst]; exact Or.inl rfl
  clear hst
  induction groups generalizing st with
  | nil => exact hinv
  | cons g gs ih =>
    simp only [List.foldl_cons]
    exact ih _ (classifyStep_inv codes platforms known st g hinv)

theorem processMatch_code_mem (codes platforms known : List (List Char))
    (groups : List (List Char)) (tr : ConversionTriple)
    (h : processMatch codes platforms known groups = some tr) :
    ∃ cd ∈ codes, tr.code = upperStr cd := by
  unfold processMatch at h
  by_cases hlen : 3 ≤ groups.length
  · rw [if_pos hlen] at h
    rcases hcg : classifyGroups codes platforms known groups with ⟨pc, op, tp⟩
    rw [hcg] at h
    cases pc with
    | none => exact absurd h (by simp)
    | some c =>
      rcases classifyGroups_inv codes platforms known groups with hn | ⟨cd, hcd, hc⟩
      · rw [hcg] at hn; exact absurd hn (by simp)
      · rw [hcg] at hc
        simp only at h
        refine ⟨cd, hcd, ?_⟩
        rw [← Option.some_inj.mp h]
        exact Option.some_inj.mp hc
  · rw [if_neg hlen] at h
    exact absurd h (by simp)

theorem tier1Pairs_code_mem (known : List (List Char)) (textLower : List Char)
    (codes platforms : List (List Char)) (tr : ConversionTriple)
    (h : tr ∈ tier1Pairs known textLower codes platforms) :
    ∃ cd ∈ codes, tr.code = upperStr cd := by
  unfold tier1Pairs at h
  rcases List.mem_flatten.mp h with ⟨l, hl, htr⟩
  rcases List.mem_map.mp hl with ⟨p, _, rfl⟩
  rcases List.mem_filterMap.mp htr with ⟨gs, _, hgs⟩
  exact processMatch_code_mem codes platforms known gs tr hgs

theorem tier1Pairs_nil_of_no_codes (known : List (List Char)) (textLower : List Char)
    (platforms : List (List Char)) :
    tier1Pairs known textLower [] platforms = [] := by
  unfold tier1Pairs
  rw [List.flatten_eq_nil_iff]
  intro l hl
  rcases List.mem_map.mp hl with ⟨p, _, rfl⟩
  rw [List.filterMap_eq_nil_iff]
  intro gs _
  cases h : processMatch [] platforms known gs with
  | none => rfl
  | some tr =>
    rcases processMatch_code_mem [] platforms known gs tr h with ⟨cd, hcd, _⟩
    exact absurd hcd (by simp)

/-- Structure of the resolver: Tier-2 output exactly when Tier 1 is empty
and codes are present, otherwise the Tier-1 output. -/
theorem parse_cases (text : List Char) (codes platforms : List (List Char)) :
    parse_conversion_instructions text codes platforms =
      if tier1Pairs knownPlatformsList (lowerStr text) codes platforms = [] ∧ codes ≠ []
      then tier2Pairs codes platforms
      else tier1Pairs knownPlatformsList (lowerStr text) codes platforms := by
  unfold parse_conversion_instructions parseInstructionsWith
  simp only
  by_cases hc : tier1Pairs knownPlatformsList (lowerStr text) codes platforms = [] ∧
      codes ≠ []
  · have hout : ¬(tier2Pairs codes platforms = [] ∧ codes ≠ []) :=
      fun hc2 => tier2Pairs_ne_nil codes platforms hc.2 hc2.1
    rw [if_pos hc, if_pos hc, hc.1, List.nil_append, if_neg hout]
  · rw [if_neg hc, if_neg hc, if_neg hc]

/-- C6: every triple returned by the resolver (hence by the extraction
façade) has a code whose upper-cased form is the upper-cased form of one
of the extracted codes — and exactly one of the extracted codes whenever
the codes are upper-case-canonical, as `_extract_codes` outputs are
(`extract_codes_upper_fixed`); and with no codes at all the resolver
returns the empty list regardless of the platforms found. -/
theorem resolver_triple_invariant (text : List Char) (codes platforms : List (List Char)) :
    (∀ tr ∈ parse_conversion_instructions text codes platforms,
       ∃ cd ∈ codes, upperStr tr.code = upperStr cd) ∧
    (codes = [] → parse_conversion_instructions text codes platforms = []) ∧
    ((∀ cd ∈ codes, upperStr cd = cd) →
      ∀ tr ∈ parse_conversion_instructions text codes platforms,
        ∃ cd ∈ codes, upperStr tr.code = cd) := by
  have main : ∀ tr ∈ parse_conversion_instructions text codes platforms,
      ∃ cd ∈ codes, upperStr tr.code = upperStr cd := by
    intro tr htr
    rw [parse_cases text codes platforms] at htr
    by_cases hc : tier1Pairs knownPlatformsList (lowerStr text) codes platforms = [] ∧
        codes ≠ []
    · rw [if_pos hc] at htr
      unfold tier2Pairs at htr
      rcases List.mem_map.mp htr with ⟨ic, hic, rfl⟩
      exact ⟨ic.2, List.snd_mem_of_mem_enum hic, rfl⟩
    · rw [if_neg hc] at htr
      rcases tier1Pairs_code_mem knownPlatformsList (lowerStr text) codes platforms tr htr
        with ⟨cd, hcd, hcode⟩
      exact ⟨cd, hcd, by rw [hcode, upperStr_upperStr]⟩
  refine ⟨main, fun hcodes => ?_, fun hcanon tr htr => ?_⟩
  · subst hcodes
    rw [parse_cases text [] platforms, if_neg (by simp),
      tier1Pairs_nil_of_no_codes knownPlatformsList (lowerStr text) platforms]
  · rcases main tr htr with ⟨cd, hcd, hup⟩
    exact ⟨cd, hcd, by rw [hup, hcanon cd hcd]⟩

/-- C6, witness: a concrete triple produced by the Tier-2 fallback, with
canonical codes, and the empty-codes case. -/
theorem resolver_triple_invariant_witness :
    (∃ cd ∈ ([chars "AB123456"] : List (List Char)),
       upperStr (ConversionTriple.mk (chars "AB123456") none none).code = upperStr cd) ∧
    parse_conversion_instructions (chars "hey") [] [chars "Stake"] = [] ∧
    (∃ cd ∈ ([chars "AB123456"] : List (List Char)),
       upperStr (ConversionTriple.mk (chars "AB123456") none none).code = cd) :=
  ⟨(resolver_triple_invariant (chars "hey") [chars "AB123456"] []).1
     ⟨chars "AB123456", none, none⟩ (by decide),
   (resolver_triple_invariant (chars "hey") [] [chars "Stake"]).2.1 rfl,
   (resolver_triple_invariant (chars "hey") [chars "AB123456"] []).2.2
     (by decide) ⟨chars "AB123456", none, none⟩ (by decide)⟩

/-! ## Claim C7 — resolver determinism

The resolver is a pure function of `(text, codes, platforms)` and the
static pattern table and vocabulary.  `self.known_platforms` is a Python
set, whose iteration order is unspecified, but the resolver consults it
only through membership: its output is invariant under any re-enumeration
of the vocabulary, and two runs on equal inputs return equal outputs. -/

theorem classifyStep_known_ext (codes platforms known known' : List (List Char))
    (hk : ∀ x, x ∈ known ↔ x ∈ known')
    (st : Option (List Char) × Option (List Char) × Option (List Char))
    (g : List Char) :
    classifyStep codes platforms known st g = classifyStep codes platforms known' st g := by
  unfold classifyStep
  by_cases h1 : upperStr g ∈ codes.map upperStr
  · rw [if_pos h1, if_pos h1]
  · rw [if_neg h1, if_neg h1]
    by_cases h2 : titleStr g ∈ platforms ∨ lowerStr g ∈ known
    · rw [if_pos h2, if_pos (Or.imp_right (fun h => (hk _).mp h) h2)]
    · rw [if_neg h2, if_neg fun hc => h2 (Or.imp_right (fun h => (hk _).mpr h) hc)]

theorem classifyGroups_known_ext (codes platforms known known' : List (List Char))
    (hk : ∀ x, x ∈ known ↔ x ∈ known') (groups : List (List Char)) :
    classifyGroups codes platforms known groups =
      classifyGroups codes platforms known' groups := by
  unfold classifyGroups
  generalize ((none, none, none) :
    Option (List Char) × Option (List Char) × Option (List Char)) = st
  induction groups generalizing st with
  | nil => rfl
  | cons g gs ih =>
    simp only [List.foldl_cons]
    rw [classifyStep_known_ext codes platforms known known' hk st g]
    exact ih _

theorem tier1Pairs_known_ext (known known' : List (List Char))
    (hk : ∀ x, x ∈ known ↔ x ∈ known') (textLower : List Char)
    (codes platforms : List (List Char)) :
    tier1Pairs known textLower codes platforms =
      tier1Pairs known' textLower codes platforms := by
  unfold tier1Pairs
  congr 1
  apply List.map_congr_left
  intro p _
  apply List.filterMap_congr
  intro gs _
  unfold processMatch
  rw [classifyGroups_known_ext codes platforms known known' hk gs]

theorem parseInstructionsWith_known_ext (known known' : List (List Char))
    (hk : ∀ x, x ∈ known ↔ x ∈ known') (text : List Char)
    (codes platforms : List (List Char)) :
    parseInstructionsWith known text codes platforms =
      parseInstructionsWith known' text codes platforms := by
  unfold parseInstructionsWith
  simp only
  rw [tier1Pairs_known_ext known known' hk (lowerStr text) codes platforms]

/-- C7: the resolver is deterministic — its output depends only on
`(text, codes, platforms)` and the static tables; in particular two runs
on the same input agree, and the result is invariant under any
re-enumeration of the `known_platforms` set. -/
theorem resolver_deterministic (text : List Char)
    (codes platforms known : List (List Char))
    (r₁ r₂ : List ConversionTriple)
    (hk : ∀ x, x ∈ known ↔ x ∈ knownPlatformsList)
    (h₁ : parseInstructionsWith known text codes platforms = r₁)
    (h₂ : parse_conversion_instructions text codes platforms = r₂) :
    r₁ = r₂ := by
  rw [← h₁, ← h₂]
  exact parseInstructionsWith_known_ext known knownPlatformsList hk text codes platforms

/-- C7, witness: the vocabulary enumerated in reverse order gives the same
result as the source order on a concrete input. -/
theorem resolver_deterministic_witness :
    parseInstructionsWith knownPlatformsList.reverse
        (chars "convert stake code AB123456 to sportybet")
        [chars "AB123456"] [chars "Stake", chars "Sportybet"] =
      parse_conversion_instructions (chars "convert stake code AB123456 to sportybet")
        [chars "AB123456"] [chars "Stake", chars "Sportybet"] :=
  resolver_deterministic (chars "convert stake code AB123456 to sportybet")
    [chars "AB123456"] [chars "Stake", chars "Sportybet"] knownPlatformsList.reverse
    _ _ (fun _ => List.mem_reverse) rfl rfl

/-! ## Claim C5 — platform recognizer error containment -/

theorem filterMap_guard {α β : Type} (q : α → Bool) (f : α → β) (l : List α) :
    l.filterMap (fun p => if q p then some (f p) else none) =
      (l.filter q).map f := by
  induction l with
  | nil => rfl
  | cons x xs ih =>
    simp only [List.filterMap_cons, List.filter_cons]
    by_cases hx : q x
    · simp [hx, ih]
    · simp [hx, ih]

theorem keywordPass_eq_filter_map (t : List Char) :
    keywordPass t =
      (knownPlatformsList.filter fun p => hasInfix (lowerStr t) p).map titleStr :=
  filterMap_guard _ _ knownPlatformsList

theorem keywordPass_nodup (t : List Char) : (keywordPass t).Nodup := by
  rw [keywordPass_eq_filter_map]
  have hsub : ((knownPlatformsList.filter fun p => hasInfix (lowerStr t) p).map
      titleStr).Sublist (knownPlatformsList.map titleStr) :=
    (List.filter_sublist knownPlatformsList).map titleStr
  exact List.Nodup.sublist hsub (by decide)

theorem dedupFirst_keywordPass (t : List Char) :
    dedupFirst (keywordPass t) = keywordPass t :=
  dedupFirstAux_eq_self (keywordPass t) [] (keywordPass_nodup t) (by simp)

theorem nlp_extract_entitiesE_ok (w : NERWorld) :
    ∃ r, nlp_extract_entitiesE w = .ok r := by
  unfold nlp_extract_entitiesE
  cases nlpTryBody w with
  | ok r => exact ⟨r, rfl⟩
  | error e => exact ⟨[], rfl⟩

/-- C5: `extract_platforms` never raises, whatever the external call does;
and when the external call raises / returns malformed JSON / returns a
non-success status, the keyword-pass candidates are returned unchanged. -/
theorem extract_platforms_error_containment (w : NERWorld) (t : List Char) :
    (∃ r, extract_platformsE w t = .ok r) ∧
    ((w = .raises ∨ (∃ s, w = .badJson s) ∨
        (∃ s ents, w = .response s ents ∧ s ≠ 200)) →
      extract_platformsE w t = .ok (keywordPass t)) := by
  constructor
  · rcases nlp_extract_entitiesE_ok w with ⟨r, hr⟩
    exact ⟨dedupFirst (keywordPass t ++ r), by rw [extract_platformsE, hr]⟩
  · intro hfail
    have hnil : nlp_extract_entitiesE w = .ok [] := by
      rcases hfail with rfl | ⟨s, rfl⟩ | ⟨s, ents, rfl, hs⟩
      · rfl
      · simp only [nlp_extract_entitiesE, nlpTryBody]
        by_cases hs : s ≠ 200
        · rw [if_pos hs]
        · rw [if_neg hs]
      · simp only [nlp_extract_entitiesE, nlpTryBody]
        rw [if_pos hs]
    rw [extract_platformsE, hnil]
    simp only [List.append_nil]
    rw [dedupFirst_keywordPass]

/-- C5, witness: a raising external call on a text naming two platforms. -/
theorem extract_platforms_error_containment_witness :
    (∃ r, extract_platformsE .raises (chars "stake to sportybet") = .ok r) ∧
    extract_platformsE .raises (chars "stake to sportybet") =
      .ok (keywordPass (chars "stake to sportybet")) :=
  ⟨(extract_platforms_error_containment .raises (chars "stake to sportybet")).1,
   (extract_platforms_error_containment .raises (chars "stake to sportybet")).2
     (Or.inl rfl)⟩

/-! ## Claim C1 — end-to-end Scenario A

What the code actually does on
`"@FlexCodeBot Convert Stake code ABC123 to SportyBet"`.  The 6–12 char
alphanumeric pattern also matches the pure-letter words `CONVERT` and
`SPORTYBET`, so the extracted code list is
`["CONVERT", "ABC123", "SPORTYBET"]`, not `["ABC123"]`; in the resolver
the captured group `sportybet` then matches the code branch (which wins
over the platform branch and overwrites the earlier `ABC123`), so every
returned triple carries code `SPORTYBET` and no triple equals
`{ABC123, Stake, Sportybet}`.  This contradicts the repository's own
test expectations (`tests/test_nlp.py` expects a single pair
`{ABC123, Stake, SportyBet}` for the same phrasing). -/
theorem scenarioA_actual_behavior :
    extract_codes
        (preprocess_text (chars "@FlexCodeBot Convert Stake code ABC123 to SportyBet")) =
      [chars "CONVERT", chars "ABC123", chars "SPORTYBET"] ∧
    extract_codes
        (preprocess_text (chars "@FlexCodeBot Convert Stake code ABC123 to SportyBet")) ≠
      [chars "ABC123"] ∧
    chars "Stake" ∈ extract_platforms .raises
        (preprocess_text (chars "@FlexCodeBot Convert Stake code ABC123 to SportyBet")) ∧
    chars "Sportybet" ∈ extract_platforms .raises
        (preprocess_text (chars "@FlexCodeBot Convert Stake code ABC123 to SportyBet")) ∧
    extract_betting_info .raises
        (chars "@FlexCodeBot Convert Stake code ABC123 to SportyBet") =
      [⟨chars "SPORTYBET", some (chars "Stake"), none⟩,
       ⟨chars "SPORTYBET", some (chars "Stake"), none⟩,
       ⟨chars "SPORTYBET", none, none⟩] ∧
    (⟨chars "ABC123", some (chars "Stake"), some (chars "Sportybet")⟩ : ConversionTriple) ∉
      extract_betting_info .raises
        (chars "@FlexCodeBot Convert Stake code ABC123 to SportyBet") := by decide

/-- Supporting evidence that the spec's Scenario A is the intended
behaviour and the code is at fault: on the exact inputs of the
repository's unit test `test_parse_conversion_instructions` (which
asserts a single pair `{ABC123, Stake, SportyBet}`), the resolver in fact
returns three pairs, and the stated target comes out title-cased as
`Sportybet`. -/
theorem repo_unit_test_inputs_behavior :
    parse_conversion_instructions (chars "convert Stake code ABC123 to SportyBet")
        [chars "ABC123"] [chars "Stake", chars "SportyBet"] =
      [⟨chars "ABC123", some (chars "Stake"), some (chars "Sportybet")⟩,
       ⟨chars "ABC123", some (chars "Stake"), some (chars "Sportybet")⟩,
       ⟨chars "ABC123", some (chars "Sportybet"), none⟩] := by decide

/-! ## Claim C9 — letters-only tokens are extracted as codes -/

theorem isWordChar_toUpper (c : Char) : isWordChar c.toUpper = isWordChar c := by
  unfold isWordChar
  rw [char_toNat_toUpper]
  by_cases h : 97 ≤ c.toNat ∧ c.toNat ≤ 122
  · rw [if_pos h]
    simp only [decide_eq_decide]
    omega
  · rw [if_neg h]

theorem isUpperAlnum_toUpper_of_letter (c : Char) (h : isAsciiLetter c = true) :
    isUpperAlnum c.toUpper = true := by
  unfold isAsciiLetter isUpperLetter isLowerLetter at h
  unfold isUpperAlnum isUpperLetter isDigitChar
  rw [char_toNat_toUpper]
  simp only [Bool.or_eq_true, decide_eq_true_eq] at h ⊢
  by_cases hc : 97 ≤ c.toNat ∧ c.toNat ≤ 122
  · rw [if_pos hc]; omega
  · rw [if_neg hc]; omega

theorem wordRunsAux_upper (l : List Char) : ∀ cur : List Char,
    wordRunsAux (cur.map Char.toUpper) (l.map Char.toUpper) =
      (wordRunsAux cur l).map (List.map Char.toUpper) := by
  induction l with
  | nil =>
    intro cur
    simp only [List.map_nil, wordRunsAux]
    by_cases hc : cur = []
    · subst hc; simp
    · rw [if_neg hc, if_neg (by simpa using hc)]
      simp [List.map_reverse]
  | cons c cs ih =>
    intro cur
    simp only [List.map_cons]
    rw [wordRunsAux]
    by_cases hw : isWordChar c
    · rw [if_pos (by rw [isWordChar_toUpper]; exact hw)]
      have hcons : (c.toUpper :: cur.map Char.toUpper) =
          (c :: cur).map Char.toUpper := by simp
      rw [hcons, ih (c :: cur)]
      conv_rhs => rw [wordRunsAux, if_pos hw]
    · rw [if_neg (by rw [isWordChar_toUpper]; simpa using hw)]
      have h0 := ih []
      rw [List.map_nil] at h0
      by_cases hc : cur = []
      · subst hc
        rw [List.map_nil, if_pos rfl, h0]
        conv_rhs => rw [wordRunsAux, if_neg hw, if_pos rfl]
      · rw [if_neg (by simpa using hc), h0]
        conv_rhs => rw [wordRunsAux, if_neg hw, if_neg hc]
        simp [List.map_reverse]

theorem wordRuns_upper (l : List Char) :
    wordRuns (upperStr l) = (wordRuns l).map upperStr := by
  unfold wordRuns upperStr
  have h := wordRunsAux_upper l []
  rw [List.map_nil] at h
  exact h

/-- Tokens returned by `_extract_codes` are fixed points of upper-casing
(they are maximal word runs of the upper-cased text). -/
theorem extract_codes_upper_fixed (t : List Char) :
    ∀ cd ∈ extract_codes t, upperStr cd = cd := by
  intro cd h
  rw [extract_codes, mem_dedupFirst_iff] at h
  unfold allCodeMatches at h
  simp only at h
  have hruns : cd ∈ wordRuns (upperStr t) := by
    rcases List.mem_append.mp h with h12 | h3
    · rcases List.mem_append.mp h12 with h1 | h2
      · exact (List.mem_filter.mp h1).1
      · exact (List.mem_filter.mp h2).1
    · exact (List.mem_filter.mp h3).1
  rw [wordRuns_upper] at hruns
  rcases List.mem_map.mp hruns with ⟨r, _, rfl⟩
  exact upperStr_upperStr r

/-- C9: any maximal word-character run of the text of length 6 to 12
consisting entirely of letters (no digit anywhere) is extracted as a
code, in upper-cased form. -/
theorem letters_only_tokens_are_codes (t r : List Char)
    (hmem : r ∈ wordRuns t) (h6 : 6 ≤ r.length) (h12 : r.length ≤ 12)
    (halpha : r.all isAsciiLetter = true) :
    upperStr r ∈ extract_codes t := by
  rw [extract_codes, mem_dedupFirst_iff]
  unfold allCodeMatches
  simp only
  apply List.mem_append_left
  apply List.mem_append_left
  apply List.mem_filter.mpr
  constructor
  · rw [wordRuns_upper]
    exact List.mem_map_of_mem upperStr hmem
  · unfold pat1Ok
    simp only [upperStr, List.length_map, Bool.and_eq_true, decide_eq_true_eq,
      List.all_eq_true]
    refine ⟨⟨h6, h12⟩, fun c hc => ?_⟩
    rcases List.mem_map.mp hc with ⟨d, hd, rfl⟩
    exact isUpperAlnum_toUpper_of_letter d (List.all_eq_true.mp halpha d hd)

/-- C9, witness: the English word `convert` is itself extracted as the
code `CONVERT`. -/
theorem letters_only_tokens_are_codes_witness :
    chars "convert" ∈ wordRuns (chars "some convert text") ∧
    upperStr (chars "convert") ∈ extract_codes (chars "some convert text") :=
  ⟨by decide,
   letters_only_tokens_are_codes (chars "some convert text") (chars "convert")
     (by decide) (by decide) (by decide) (by decide)⟩

/-! ## Claim C8 — idempotence of `_preprocess_text`

Strategy: characterise the image of the normalizer.  A text is *clean*
when it has no marker (`@`/`#`) followed by a word character, all its
whitespace is single isolated spaces and it neither starts nor ends with
whitespace.  Every normalizer stage preserves the invariants established
by the earlier stages and establishes its own, so normalized text is
clean; and each stage is the identity on clean text. -/

theorem okMarks_tail (m c : Char) (cs : List Char) (h : okMarks m (c :: cs) = true) :
    okMarks m cs = true := by
  rw [okMarks, Bool.and_eq_true] at h
  exact h.2

theorem pairOkM_head (m c : Char) (cs : List Char) (h : okMarks m (c :: cs) = true) :
    pairOkM m c cs = true := by
  rw [okMarks, Bool.and_eq_true] at h
  exact h.1

theorem spacesOk_tail (c : Char) (cs : List Char) (h : spacesOk (c :: cs) = true) :
    spacesOk cs = true := by
  rw [spacesOk, Bool.and_eq_true] at h
  exact h.2

theorem spOk_head (c : Char) (cs : List Char) (h : spacesOk (c :: cs) = true) :
    spOk c cs = true := by
  rw [spacesOk, Bool.and_eq_true] at h
  exact h.1

/-- A clean text is a fixed point of one `re.sub(r'<m>\w+', '', ·)` pass. -/
theorem subMark_fix (m : Char) (l : List Char) (h : okMarks m l = true) :
    subMark m l = l := by
  unfold subMark
  induction l with
  | nil => rfl
  | cons c cs ih =>
    rw [subMarkAux]
    have hpair := pairOkM_head m c cs h
    have hcond : (c == m && headIsWord cs) = false := by
      cases cs with
      | nil => simp [headIsWord]
      | cons d ds =>
        rw [pairOkM] at hpair
        simp only [headIsWord]
        simp only [Bool.not_eq_eq_eq_not, Bool.not_true, Bool.and_eq_false_imp,
          beq_iff_eq] at hpair ⊢
        exact hpair
    rw [Bool.false_and, if_neg (by simp), hcond, if_neg (by simp)]
    rw [ih (okMarks_tail m c cs h)]

/-- A clean text is a fixed point of the whitespace-collapsing pass
(both outside and — when it does not start with whitespace — inside a
run). -/
theorem collapseWs_fix_aux (l : List Char) (h : spacesOk l = true) :
    collapseWsAux false l = l ∧
      (headIsSpace l = false → collapseWsAux true l = l) := by
  induction l with
  | nil => exact ⟨rfl, fun _ => rfl⟩
  | cons c cs ih =>
    have hsp := spOk_head c cs h
    have htail := spacesOk_tail c cs h
    rcases ih htail with ⟨ih1, ih2⟩
    constructor
    · rw [collapseWsAux]
      by_cases hc : isSpaceChar c = true
      · rw [if_pos hc, if_neg (by simp)]
        rw [spOk, if_pos hc, Bool.and_eq_true] at hsp
        have hceq : c = ' ' := by simpa using hsp.1
        have hhead : headIsSpace cs = false := by simpa using hsp.2
        rw [ih2 hhead, hceq]
      · rw [if_neg hc, ih1]
    · intro hhead
      rw [headIsSpace] at hhead
      rw [collapseWsAux, if_neg (by simp [hhead]), ih1]

theorem lstripWs_fix (l : List Char) (h : headIsSpace l = false) :
    lstripWs l = l := by
  unfold lstripWs
  cases l with
  | nil => rfl
  | cons c cs =>
    rw [headIsSpace] at h
    rw [List.dropWhile_cons, if_neg (by simp [h])]

theorem rstripWs_fix (l : List Char) (h : headIsSpace l.reverse = false) :
    rstripWs l = l := by
  unfold rstripWs
  rw [show l.reverse.dropWhile isSpaceChar = l.reverse from lstripWs_fix l.reverse h,
    List.reverse_reverse]

/-- While the marker-substitution machine is skipping a word run, the
first character it emits is never a word character. -/
theorem headIsWord_subMarkAux_skip (m : Char) (l : List Char) :
    headIsWord (subMarkAux m true l) = false := by
  induction l with
  | nil => rfl
  | cons c cs ih =>
    rw [subMarkAux]
    by_cases hw : isWordChar c = true
    · rw [if_pos (by simp [hw])]
      exact ih
    · rw [if_neg (by simp [hw])]
      by_cases hm : (c == m && headIsWord cs) = true
      · rw [if_pos hm]; exact ih
      · rw [if_neg (by simp at hm ⊢; exact hm)]
        simpa [headIsWord] using hw

/-- The marker-substitution pass never puts a word character right after
a character it kept whose successor was not a word character. -/
theorem headIsWord_subMarkAux (m : Char) (l : List Char)
    (h : headIsWord l = false) :
    headIsWord (subMarkAux m false l) = false := by
  cases l with
  | nil => rfl
  | cons c cs =>
    rw [headIsWord] at h
    rw [subMarkAux, Bool.false_and, if_neg (by simp)]
    by_cases hm : (c == m && headIsWord cs) = true
    · rw [if_pos hm]
      exact headIsWord_subMarkAux_skip m cs
    · rw [if_neg (by simp at hm ⊢; exact hm)]
      simpa [headIsWord] using h

/-- The output of `re.sub(r'<m>\w+', '', ·)` contains no occurrence of
`m` followed by a word character. -/
theorem okMarks_subMarkAux (m : Char) (l : List Char) :
    ∀ b, okMarks m (subMarkAux m b l) = true := by
  induction l with
  | nil => intro b; rfl
  | cons c cs ih =>
    intro b
    rw [subMarkAux]
    by_cases hskip : (b && isWordChar c) = true
    · rw [if_pos hskip]; exact ih true
    · rw [if_neg (by simp at hskip ⊢; exact hskip)]
      by_cases hm : (c == m && headIsWord cs) = true
      · rw [if_pos hm]; exact ih true
      · rw [if_neg (by simp at hm ⊢; exact hm)]
        rw [okMarks, Bool.and_eq_true]
        refine ⟨?_, ih false⟩
        by_cases hcm : c = m
        · subst hcm
          simp only [Bool.and_eq_true, beq_iff_eq, not_and,
            Bool.not_eq_true] at hm
          have hhead : headIsWord cs = false := hm trivial
          have := headIsWord_subMarkAux c cs hhead
          cases hsub : subMarkAux c false cs with
          | nil => rfl
          | cons d ds =>
            rw [hsub] at this
            rw [pairOkM]
            simpa [headIsWord] using this
        · cases hsub : subMarkAux m false cs with
          | nil => rfl
          | cons d ds => simp [pairOkM, hcm]

/-- Substituting one marker preserves the absence of another marker's
occurrences (the characters spliced together are a kept character and a
non-word character). -/
theorem okMarks_subMarkAux_other (m m' : Char) (l : List Char)
    (h : okMarks m l = true) : ∀ b, okMarks m (subMarkAux m' b l) = true := by
  induction l with
  | nil => intro b; rfl
  | cons c cs ih =>
    intro b
    have htail := okMarks_tail m c cs h
    have hpair := pairOkM_head m c cs h
    rw [subMarkAux]
    by_cases hskip : (b && isWordChar c) = true
    · rw [if_pos hskip]; exact ih htail true
    · rw [if_neg (by simp at hskip ⊢; exact hskip)]
      by_cases hm : (c == m' && headIsWord cs) = true
      · rw [if_pos hm]; exact ih htail true
      · rw [if_neg (by simp at hm ⊢; exact hm)]
        rw [okMarks, Bool.and_eq_true]
        refine ⟨?_, ih htail false⟩
        by_cases hcm : c = m
        · subst hcm
          have hhead : headIsWord cs = false := by
            cases cs with
            | nil => rfl
            | cons d ds =>
              rw [pairOkM] at hpair
              simpa [headIsWord] using hpair
          have := headIsWord_subMarkAux m' cs hhead
          cases hsub : subMarkAux m' false cs with
          | nil => rfl
          | cons d ds =>
            rw [hsub] at this
            rw [pairOkM]
            simpa [headIsWord] using this
        · cases hsub : subMarkAux m' false cs with
          | nil => rfl
          | cons d ds => simp [pairOkM, hcm]

/-- Inside a whitespace run the collapsing machine emits nothing until a
non-whitespace character arrives. -/
theorem headIsSpace_collapseWsAux_skip (l : List Char) :
    headIsSpace (collapseWsAux true l) = false := by
  induction l with
  | nil => rfl
  | cons c cs ih =>
    rw [collapseWsAux]
    by_cases hc : isSpaceChar c = true
    · rw [if_pos hc, if_pos rfl]; exact ih
    · rw [if_neg hc]
      simpa [headIsSpace] using hc

/-- The whitespace-collapsing pass leaves only single isolated spaces. -/
theorem spacesOk_collapseWsAux (l : List Char) :
    ∀ b, spacesOk (collapseWsAux b l) = true := by
  induction l with
  | nil => intro b; rfl
  | cons c cs ih =>
    intro b
    rw [collapseWsAux]
    by_cases hc : isSpaceChar c = true
    · rw [if_pos hc]
      by_cases hb : b = true
      · rw [if_pos hb]; exact ih true
      · rw [if_neg hb, spacesOk, Bool.and_eq_true]
        refine ⟨?_, ih true⟩
        rw [spOk, if_pos (by decide)]
        simp [headIsSpace_collapseWsAux_skip cs]
    · rw [if_neg hc, spacesOk, Bool.and_eq_true]
      refine ⟨?_, ih false⟩
      rw [spOk, if_neg hc]

/-- Collapsing whitespace cannot create a marker-followed-by-word-character
occurrence: spliced positions get a space (not a word character) after
them, and a kept character keeps its successor or gets a space. -/
theorem pairOkM_collapseWsAux (m c : Char) (cs : List Char)
    (h : pairOkM m c cs = true) : pairOkM m c (collapseWsAux false cs) = true := by
  cases cs with
  | nil => rfl
  | cons d ds =>
    rw [collapseWsAux]
    by_cases hd : isSpaceChar d = true
    · rw [if_pos hd, if_neg (by simp)]
      simp [pairOkM, isWordChar]
    · rw [if_neg hd]
      rw [pairOkM] at h ⊢
      exact h

theorem okMarks_collapseWsAux (m : Char) (hm : (' ' == m) = false) (l : List Char)
    (h : okMarks m l = true) : ∀ b, okMarks m (collapseWsAux b l) = true := by
  induction l with
  | nil => intro b; rfl
  | cons c cs ih =>
    intro b
    have htail := okMarks_tail m c cs h
    have hpair := pairOkM_head m c cs h
    rw [collapseWsAux]
    by_cases hc : isSpaceChar c = true
    · rw [if_pos hc]
      by_cases hb : b = true
      · rw [if_pos hb]; exact ih htail true
      · rw [if_neg hb, okMarks, Bool.and_eq_true]
        refine ⟨?_, ih htail true⟩
        cases collapseWsAux true cs with
        | nil => rfl
        | cons d ds => simp [pairOkM, hm]
    · rw [if_neg hc, okMarks, Bool.and_eq_true]
      exact ⟨pairOkM_collapseWsAux m c cs hpair, ih htail false⟩

/-- Both invariants restrict only adjacent positions, so they pass to any
suffix obtained by `dropWhile`. -/
theorem okMarks_dropWhile (m : Char) (p : Char → Bool) (l : List Char)
    (h : okMarks m l = true) : okMarks m (l.dropWhile p) = true := by
  induction l with
  | nil => exact h
  | cons c cs ih =>
    rw [List.dropWhile_cons]
    by_cases hc : p c = true
    · rw [if_pos hc]; exact ih (okMarks_tail m c cs h)
    · rw [if_neg hc]; exact h

theorem spacesOk_dropWhile (p : Char → Bool) (l : List Char)
    (h : spacesOk l = true) : spacesOk (l.dropWhile p) = true := by
  induction l with
  | nil => exact h
  | cons c cs ih =>
    rw [List.dropWhile_cons]
    by_cases hc : p c = true
    · rw [if_pos hc]; exact ih (spacesOk_tail c cs h)
    · rw [if_neg hc]; exact h

theorem pairOkM_append_left (m c : Char) (l₁ l₂ : List Char)
    (h : pairOkM m c (l₁ ++ l₂) = true) : pairOkM m c l₁ = true := by
  cases l₁ with
  | nil => rfl
  | cons d ds => exact h

theorem okMarks_append_left (m : Char) (l₁ l₂ : List Char)
    (h : okMarks m (l₁ ++ l₂) = true) : okMarks m l₁ = true := by
  induction l₁ with
  | nil => rfl
  | cons c cs ih =>
    rw [List.cons_append] at h
    rw [okMarks, Bool.and_eq_true]
    exact ⟨pairOkM_append_left m c cs l₂ (pairOkM_head m c (cs ++ l₂) h),
      ih (okMarks_tail m c (cs ++ l₂) h)⟩

theorem spOk_append_left (c : Char) (l₁ l₂ : List Char)
    (h : spOk c (l₁ ++ l₂) = true) : spOk c l₁ = true := by
  cases l₁ with
  | nil =>
    rw [spOk] at h ⊢
    by_cases hc : isSpaceChar c = true
    · rw [if_pos hc] at h ⊢
      rw [Bool.and_eq_true] at h
      simp [h.1, headIsSpace]
    · rw [if_neg hc] at h ⊢
  | cons d ds => exact h

theorem spacesOk_append_left (l₁ l₂ : List Char)
    (h : spacesOk (l₁ ++ l₂) = true) : spacesOk l₁ = true := by
  induction l₁ with
  | nil => rfl
  | cons c cs ih =>
    rw [List.cons_append] at h
    rw [spacesOk, Bool.and_eq_true]
    exact ⟨spOk_append_left c cs l₂ (spOk_head c (cs ++ l₂) h),
      ih (spacesOk_tail c (cs ++ l₂) h)⟩

/-- `rstripWs l` is a prefix of `l`. -/
theorem rstripWs_append (l : List Char) :
    l = rstripWs l ++ (l.reverse.takeWhile isSpaceChar).reverse := by
  unfold rstripWs
  rw [← List.reverse_append, List.takeWhile_append_dropWhile, List.reverse_reverse]

theorem okMarks_rstripWs (m : Char) (l : List Char) (h : okMarks m l = true) :
    okMarks m (rstripWs l) = true :=
  okMarks_append_left m (rstripWs l) _ (by rw [← rstripWs_append l]; exact h)

theorem spacesOk_rstripWs (l : List Char) (h : spacesOk l = true) :
    spacesOk (rstripWs l) = true :=
  spacesOk_append_left (rstripWs l) _ (by rw [← rstripWs_append l]; exact h)

theorem headIsSpace_dropWhile_self (l : List Char) :
    headIsSpace (l.dropWhile isSpaceChar) = false := by
  induction l with
  | nil => rfl
  | cons c cs ih =>
    rw [List.dropWhile_cons]
    by_cases hc : isSpaceChar c = true
    · rw [if_pos hc]; exact ih
    · rw [if_neg hc]
      simpa [headIsSpace] using hc

/-- The last character of `rstripWs l` is not whitespace. -/
theorem rstripWs_last_not_space (l : List Char) :
    headIsSpace (rstripWs l).reverse = false := by
  unfold rstripWs
  rw [List.reverse_reverse]
  exact headIsSpace_dropWhile_self l.reverse

/-- `rstripWs` keeps the head of the list (or empties it). -/
theorem headIsSpace_rstripWs (l : List Char) (h : headIsSpace l = false) :
    headIsSpace (rstripWs l) = false := by
  cases hr : rstripWs l with
  | nil => rfl
  | cons c cs =>
    have hdecomp := rstripWs_append l
    rw [hr] at hdecomp
    cases l with
    | nil => simp at hdecomp
    | cons d ds =>
      rw [List.cons_append] at hdecomp
      rw [headIsSpace] at h ⊢
      rw [show c = d from (List.cons.injEq .. ▸ hdecomp).1.symm]
      exact h

/-- Every text produced by the normalizer satisfies all the cleanliness
invariants. -/
theorem preprocess_clean (t : List Char) :
    okMarks '@' (preprocess_text t) = true ∧
    okMarks '#' (preprocess_text t) = true ∧
    spacesOk (preprocess_text t) = true ∧
    headIsSpace (preprocess_text t) = false ∧
    headIsSpace (preprocess_text t).reverse = false := by
  unfold preprocess_text stripWs lstripWs subMark collapseWs
  refine ⟨?_, ?_, ?_, ?_, ?_⟩
  · apply okMarks_rstripWs
    apply okMarks_dropWhile
    apply okMarks_collapseWsAux '@' (by decide)
    exact okMarks_subMarkAux_other '@' '#' _ (okMarks_subMarkAux '@' t false) false
  · apply okMarks_rstripWs
    apply okMarks_dropWhile
    apply okMarks_collapseWsAux '#' (by decide)
    exact okMarks_subMarkAux '#' _ false
  · apply spacesOk_rstripWs
    apply spacesOk_dropWhile
    exact spacesOk_collapseWsAux _ false
  · apply headIsSpace_rstripWs
    exact headIsSpace_dropWhile_self _
  · exact rstripWs_last_not_space _

/-- The normalizer is the identity on clean text. -/
theorem preprocess_fix (u : List Char)
    (h1 : okMarks '@' u = true) (h2 : okMarks '#' u = true)
    (h3 : spacesOk u = true) (h4 : headIsSpace u = false)
    (h5 : headIsSpace u.reverse = false) :
    preprocess_text u = u := by
  unfold preprocess_text stripWs
  rw [subMark_fix '@' u h1, subMark_fix '#' u h2]
  rw [show collapseWs u = u from (collapseWs_fix_aux u h3).1]
  rw [lstripWs_fix u h4, rstripWs_fix u h5]

/-- The normalizer is idempotent. -/
theorem preprocess_idem (t : List Char) :
    preprocess_text (preprocess_text t) = preprocess_text t := by
  rcases preprocess_clean t with ⟨h1, h2, h3, h4, h5⟩
  exact preprocess_fix (preprocess_text t) h1 h2 h3 h4 h5

/-- C8: normalizing twice and then extracting codes gives the same result
as normalizing once. -/
theorem extract_codes_renormalize_idem (t : List Char) :
    extract_codes (preprocess_text (preprocess_text t)) =
      extract_codes (preprocess_text t) :=
  congrArg extract_codes (preprocess_idem t)

end FlexCodeBot
